import Mathlib

/-!
# Firestore default-value migration (`firestore_migrate.js`)

A shallow embedding of the backfill script: JavaScript values as stored in
Firestore documents, the truthiness test `!x`, objects as association lists,
the document store as explicit state, and the four `migrate*` functions with
`runMigrations` and the top-level `.catch(console.error)`.
-/

namespace FirestoreMigrate

/-! ## Values -/

/-- A JavaScript number, as the three fields of an IEEE-754 binary64:
sign bit, 11-bit biased exponent, 52-bit mantissa.  Only the classification
into zero / NaN / other is ever used by the script (through `!x`). -/
structure JSNumber where
  sign : Bool
  exponent : Nat
  mantissa : Nat
deriving DecidableEq, Repr

/-- The numbers `+0` and `-0`. -/
def JSNumber.isZero (n : JSNumber) : Bool :=
  n.exponent == 0 && n.mantissa == 0

/-- The value `NaN`: all exponent bits set, mantissa non-zero. -/
def JSNumber.isNaN (n : JSNumber) : Bool :=
  n.exponent == 2047 && n.mantissa != 0

/-- The number `0`. -/
def JSNumber.zero : JSNumber := ⟨false, 0, 0⟩

/-- The values `doc.data()` can hold for a field.  A field that is not in the
document reads as JavaScript `undefined`, which is `none` at lookup; Firestore
stores no `undefined`. -/
inductive Value where
  | null
  | bool (b : Bool)
  | number (n : JSNumber)
  | string (s : String)
  | map (fields : List (String × Value))
  | array (items : List Value)
  | timestamp (seconds : Int) (nanos : Int)
  | geopoint (lat : JSNumber) (lng : JSNumber)
  | reference (path : String)
  | bytes (data : List Nat)

/-- A plain JavaScript object: own properties in insertion order. -/
abbrev Obj := List (String × Value)

/-- Property read `o.k` / `o[k]`: `none` is `undefined`. -/
def Obj.get (o : Obj) (k : String) : Option Value :=
  match o with
  | [] => none
  | (k', v) :: rest => if k' = k then some v else Obj.get rest k

/-- The test `k in o` on a plain object. -/
def Obj.has (o : Obj) (k : String) : Bool :=
  match o with
  | [] => false
  | (k', _) :: rest => if k' = k then true else Obj.has rest k

/-- Property write `o.k = v`: overwrite in place, or add at the end. -/
def Obj.set (o : Obj) (k : String) (v : Value) : Obj :=
  match o with
  | [] => [(k, v)]
  | (k', v') :: rest => if k' = k then (k, v) :: rest else (k', v') :: Obj.set rest k v

/-- The list `Object.keys(o)`. -/
def Obj.keys (o : Obj) : List String := o.map Prod.fst

/-- Merge of an update into a document: the listed fields are overwritten,
every other field is kept. -/
def Obj.merge (o : Obj) (updates : Obj) : Obj :=
  updates.foldl (fun acc kv => Obj.set acc kv.1 kv.2) o

/-- JavaScript truthiness of the result of a property read, so that `!x` is
`!truthy x`.  Falsy: `undefined`, `null`, `false`, `0`, `-0`, `NaN`, `""`.
Every object (maps, also the empty one, arrays, timestamps, ...) is truthy. -/
def truthy : Option Value → Bool
  | none => false
  | some .null => false
  | some (.bool b) => b
  | some (.number n) => !(n.isZero || n.isNaN)
  | some (.string s) => !(s.length == 0)
  | some (.map _) => true
  | some (.array _) => true
  | some (.timestamp _ _) => true
  | some (.geopoint _ _) => true
  | some (.reference _) => true
  | some (.bytes _) => true

/-- The comparison `x === s` against a string literal `s`. -/
def strictEqString : Option Value → String → Bool
  | some (.string t), s => t == s
  | _, _ => false

/-- The test `typeof x === 'undefined'`. -/
def isUndefined : Option Value → Bool
  | none => true
  | some _ => false

/-! ## The document store -/

/-- The four collections the script touches. -/
inductive Collection where
  | users
  | queries
  | chats
  | messages
deriving DecidableEq, Repr

/-- A document snapshot: `doc.id` and `doc.data()`. -/
structure DocSnap where
  id : String
  data : Obj

/-- The database: each collection is the list of its documents. -/
structure Store where
  users : List DocSnap
  queries : List DocSnap
  chats : List DocSnap
  messages : List DocSnap

/-- The documents of `db.collection(c)`. -/
def Store.coll (s : Store) : Collection → List DocSnap
  | .users => s.users
  | .queries => s.queries
  | .chats => s.chats
  | .messages => s.messages

/-- Replace the documents of one collection. -/
def Store.setColl (s : Store) (c : Collection) (docs : List DocSnap) : Store :=
  match c with
  | .users => { s with users := docs }
  | .queries => { s with queries := docs }
  | .chats => { s with chats := docs }
  | .messages => { s with messages := docs }

/-- Effect of an update on one stored document: merged if it is the addressed
document, untouched otherwise. -/
def updateDoc (id : String) (updates : Obj) (d : DocSnap) : DocSnap :=
  if d.id = id then ⟨d.id, Obj.merge d.data updates⟩ else d

/-- Effect of a successful `ref.update(updates)` on the store. -/
def Store.update (s : Store) (c : Collection) (id : String) (updates : Obj) : Store :=
  s.setColl c ((s.coll c).map (updateDoc id updates))

/-- A call made to the database client. -/
inductive DbCall where
  | get (c : Collection)
  | update (c : Collection) (id : String) (updates : Obj)

/-- What `console.log` receives: a string, or a string and an object. -/
inductive LogEntry where
  | line (s : String)
  | lineObj (s : String) (o : Obj)

/-- The error a rejected database call carries. -/
abbrev Err := String

/-- The environment decides which database calls fail: `f n` is the error of
the call number `n` of the run (counting from 0), `none` when it succeeds. -/
abbrev Faults := Nat → Option Err

/-- No database call fails. -/
def noFaults : Faults := fun _ => none

/-- Everything the script can change or emit. -/
structure World where
  store : Store
  stdout : List LogEntry
  stderr : List Err
  calls : List DbCall

/-- The world a run starts from. -/
def World.init (s : Store) : World := ⟨s, [], [], []⟩

/-- The call `console.log(...)`. -/
def consoleLog (e : LogEntry) (w : World) : World :=
  { w with stdout := w.stdout ++ [e] }

/-- The call `console.error(err)`. -/
def consoleError (e : Err) (w : World) : World :=
  { w with stderr := w.stderr ++ [e] }

/-- The awaited call `db.collection(c).get()`. -/
def collectionGet (f : Faults) (c : Collection) (w : World) :
    Except Err (List DocSnap) × World :=
  let w' := { w with calls := w.calls ++ [DbCall.get c] }
  match f w.calls.length with
  | some e => (.error e, w')
  | none => (.ok (w.store.coll c), w')

/-- The awaited call `doc.ref.update(updates)`: a rejected update leaves the
store as it was. -/
def refUpdate (f : Faults) (c : Collection) (id : String) (updates : Obj) (w : World) :
    Except Err Unit × World :=
  let w' := { w with calls := w.calls ++ [DbCall.update c id updates] }
  match f w.calls.length with
  | some e => (.error e, w')
  | none => (.ok (), { w' with store := w.store.update c id updates })

/-- The loop `for (const doc of docs) { body }` with awaits inside: a
rejection leaves the loop at once. -/
def forOf (body : DocSnap → World → Except Err Unit × World) :
    List DocSnap → World → Except Err Unit × World
  | [], w => (.ok (), w)
  | d :: ds, w =>
    match body d w with
    | (.error e, w') => (.error e, w')
    | (.ok (), w') => forOf body ds w'

/-! ## The script -/

/-- The object `updates` built for a user document (source lines 13-15). -/
def usersUpdates (data : Obj) : Obj :=
  let updates : Obj := []
  let updates := if !truthy (data.get "role") then
    updates.set "role" (.string "agent") else updates
  let updates :=
    if strictEqString (updates.get "role") "agent" && isUndefined (data.get "isOnline") then
      updates.set "isOnline" (.bool false) else updates
  updates

/-- Loop body of `migrateUsers`. -/
def usersBody (f : Faults) (doc : DocSnap) (w : World) : Except Err Unit × World :=
  let data := doc.data
  let updates := usersUpdates data
  if (Obj.keys updates).length > 0 then
    match refUpdate f .users doc.id updates w with
    | (.error e, w') => (.error e, w')
    | (.ok (), w') =>
      (.ok (), consoleLog (.lineObj ("Updated user " ++ doc.id ++ ":") updates) w')
  else (.ok (), w)

/-- The function `migrateUsers`. -/
def migrateUsers (f : Faults) (w : World) : Except Err Unit × World :=
  match collectionGet f .users w with
  | (.error e, w') => (.error e, w')
  | (.ok users, w') => forOf (usersBody f) users w'

/-- The object `updates` built for a query document (source lines 27-32). -/
def queriesUpdates (data : Obj) : Obj :=
  let updates : Obj := []
  let updates := if !truthy (data.get "status") then
    updates.set "status" (.string "pending") else updates
  let updates := if !data.has "assignedTo" then updates.set "assignedTo" .null else updates
  let updates := if !data.has "assignedBy" then updates.set "assignedBy" .null else updates
  let updates := if !data.has "assignedAt" then updates.set "assignedAt" .null else updates
  let updates := if !data.has "resolvedAt" then updates.set "resolvedAt" .null else updates
  updates

/-- Loop body of `migrateQueries`. -/
def queriesBody (f : Faults) (doc : DocSnap) (w : World) : Except Err Unit × World :=
  let data := doc.data
  let updates := queriesUpdates data
  if (Obj.keys updates).length > 0 then
    match refUpdate f .queries doc.id updates w with
    | (.error e, w') => (.error e, w')
    | (.ok (), w') =>
      (.ok (), consoleLog (.lineObj ("Updated query " ++ doc.id ++ ":") updates) w')
  else (.ok (), w)

/-- The function `migrateQueries`. -/
def migrateQueries (f : Faults) (w : World) : Except Err Unit × World :=
  match collectionGet f .queries w with
  | (.error e, w') => (.error e, w')
  | (.ok queries, w') => forOf (queriesBody f) queries w'

/-- Loop body of `migrateChats`. -/
def chatsBody (f : Faults) (doc : DocSnap) (w : World) : Except Err Unit × World :=
  let data := doc.data
  if !truthy (data.get "participants") then
    match refUpdate f .chats doc.id [("participants", .map [])] w with
    | (.error e, w') => (.error e, w')
    | (.ok (), w') =>
      (.ok (), consoleLog (.line ("Updated chat " ++ doc.id ++ ": added empty participants")) w')
  else (.ok (), w)

/-- The function `migrateChats`. -/
def migrateChats (f : Faults) (w : World) : Except Err Unit × World :=
  match collectionGet f .chats w with
  | (.error e, w') => (.error e, w')
  | (.ok chats, w') => forOf (chatsBody f) chats w'

/-- Loop body of `migrateMessages`. -/
def messagesBody (f : Faults) (doc : DocSnap) (w : World) : Except Err Unit × World :=
  let data := doc.data
  if !truthy (data.get "status") then
    match refUpdate f .messages doc.id [("status", .string "sent")] w with
    | (.error e, w') => (.error e, w')
    | (.ok (), w') =>
      (.ok (), consoleLog (.line ("Updated message " ++ doc.id ++ ": set status to sent")) w')
  else (.ok (), w)

/-- The function `migrateMessages`. -/
def migrateMessages (f : Faults) (w : World) : Except Err Unit × World :=
  match collectionGet f .messages w with
  | (.error e, w') => (.error e, w')
  | (.ok messages, w') => forOf (messagesBody f) messages w'

/-- The function `runMigrations`. -/
def runMigrations (f : Faults) (w : World) : Except Err Unit × World :=
  let w := consoleLog (.line "Migrating users...") w
  match migrateUsers f w with
  | (.error e, w) => (.error e, w)
  | (.ok (), w) =>
    let w := consoleLog (.line "Migrating queries...") w
    match migrateQueries f w with
    | (.error e, w) => (.error e, w)
    | (.ok (), w) =>
      let w := consoleLog (.line "Migrating chats...") w
      match migrateChats f w with
      | (.error e, w) => (.error e, w)
      | (.ok (), w) =>
        let w := consoleLog (.line "Migrating messages...") w
        match migrateMessages f w with
        | (.error e, w) => (.error e, w)
        | (.ok (), w) => (.ok (), consoleLog (.line "All migrations complete!") w)

/-- What is left of a finished process: the final world and the exit status. -/
structure ProcessResult where
  world : World
  exitStatus : Nat

/-- The promise `p.catch(handler)`: a rejection of `p` is passed to the
handler and the result takes the handler's outcome. -/
def promiseCatch (r : Except Err Unit × World)
    (handler : Err → World → Except Err Unit × World) : Except Err Unit × World :=
  match r with
  | (.error e, w) => handler e w
  | (.ok (), w) => (.ok (), w)

/-- How the Node process ends once the top-level promise has settled: a
rejection nobody handled is printed and gives status 1; otherwise the status
is 0, since the script never assigns `process.exitCode` nor calls
`process.exit`. -/
def nodeExit (r : Except Err Unit × World) : ProcessResult :=
  match r with
  | (.error e, w) => ⟨consoleError e w, 1⟩
  | (.ok (), w) => ⟨w, 0⟩

/-- The top level `runMigrations().catch(console.error)`: the handler prints
the error and returns normally, so the promise the process waits for is
fulfilled on both paths. -/
def topLevel (f : Faults) (s : Store) : ProcessResult :=
  nodeExit (promiseCatch (runMigrations f (World.init s))
    (fun e w => (.ok (), consoleError e w)))

/-! ## Straight-line form of a run

A run is a sequence of database calls and log lines fixed by the store it
starts from; the definitions below spell that sequence out, and the theorems
further down prove that the script executes exactly it. -/

/-- The update the rule of collection `c` issues for a document with fields
`data`, and `[]` when it issues none. -/
def patchOf (c : Collection) (data : Obj) : Obj :=
  match c with
  | .users => usersUpdates data
  | .queries => queriesUpdates data
  | .chats => if !truthy (data.get "participants") then [("participants", .map [])] else []
  | .messages => if !truthy (data.get "status") then [("status", .string "sent")] else []

/-- The progress line printed after a successful update of `doc`. -/
def logOf (c : Collection) (doc : DocSnap) : LogEntry :=
  match c with
  | .users => .lineObj ("Updated user " ++ doc.id ++ ":") (usersUpdates doc.data)
  | .queries => .lineObj ("Updated query " ++ doc.id ++ ":") (queriesUpdates doc.data)
  | .chats => .line ("Updated chat " ++ doc.id ++ ": added empty participants")
  | .messages => .line ("Updated message " ++ doc.id ++ ": set status to sent")

/-- The phase banner of a collection. -/
def banner : Collection → LogEntry
  | .users => .line "Migrating users..."
  | .queries => .line "Migrating queries..."
  | .chats => .line "Migrating chats..."
  | .messages => .line "Migrating messages..."

/-- The completion line. -/
def completeLine : LogEntry := .line "All migrations complete!"

/-- One step of a straight-line run: print a line, or await a database call. -/
inductive Step where
  | say (l : LogEntry)
  | call (c : DbCall)

/-- Effect of a successful database call on the store. -/
def applyCall (s : Store) : DbCall → Store
  | .get _ => s
  | .update c id updates => s.update c id updates

/-- The store after the given calls all succeeded, in order. -/
def replay (s : Store) (cs : List DbCall) : Store :=
  cs.foldl applyCall s

/-- Run a straight-line sequence of steps; the first rejected call ends it. -/
def execPlan (f : Faults) : List Step → World → Except Err Unit × World
  | [], w => (.ok (), w)
  | .say l :: rest, w => execPlan f rest (consoleLog l w)
  | .call c :: rest, w =>
    match f w.calls.length with
    | some e => (.error e, { w with calls := w.calls ++ [c] })
    | none => execPlan f rest { w with calls := w.calls ++ [c], store := applyCall w.store c }

/-- The database calls among the steps. -/
def callsOf : List Step → List DbCall
  | [] => []
  | .say _ :: rest => callsOf rest
  | .call c :: rest => c :: callsOf rest

/-- The lines printed by the steps. -/
def logsOf : List Step → List LogEntry
  | [] => []
  | .say l :: rest => l :: logsOf rest
  | .call _ :: rest => logsOf rest

/-- Steps for one document: the update and its progress line, or nothing. -/
def docSteps (c : Collection) (d : DocSnap) : List Step :=
  if (Obj.keys (patchOf c d.data)).length > 0 then
    [.call (.update c d.id (patchOf c d.data)), .say (logOf c d)]
  else []

/-- Steps for the documents of a snapshot, in order. -/
def collSteps (c : Collection) : List DocSnap → List Step
  | [] => []
  | d :: ds => docSteps c d ++ collSteps c ds

/-- Steps of one `migrate*` function: the read, then the documents. -/
def phaseSteps (c : Collection) (docs : List DocSnap) : List Step :=
  .call (.get c) :: collSteps c docs

/-- The whole run from store `s`. -/
def fullPlan (s : Store) : List Step :=
  (.say (banner .users) :: phaseSteps .users s.users) ++
  ((.say (banner .queries) :: phaseSteps .queries s.queries) ++
  ((.say (banner .chats) :: phaseSteps .chats s.chats) ++
  ((.say (banner .messages) :: phaseSteps .messages s.messages) ++
  [.say completeLine])))

/-- Every document already has all its defaults: truthy `role` for users;
truthy `status` and the four assignment keys for queries; truthy
`participants` for chats; truthy `status` for messages. -/
def satisfiesDefaults (s : Store) : Bool :=
  s.users.all (fun d => truthy (d.data.get "role")) &&
  s.queries.all (fun d => truthy (d.data.get "status") && d.data.has "assignedTo" &&
    d.data.has "assignedBy" && d.data.has "assignedAt" && d.data.has "resolvedAt") &&
  s.chats.all (fun d => truthy (d.data.get "participants")) &&
  s.messages.all (fun d => truthy (d.data.get "status"))

/-- Document identifiers are unique within each collection. -/
def Store.uniqueIds (s : Store) : Prop :=
  (s.users.map DocSnap.id).Nodup ∧ (s.queries.map DocSnap.id).Nodup ∧
  (s.chats.map DocSnap.id).Nodup ∧ (s.messages.map DocSnap.id).Nodup

instance (s : Store) : Decidable s.uniqueIds := by
  unfold Store.uniqueIds
  infer_instance

/-- Whether a printed line is one of the four banners or the completion line. -/
def isBanner : LogEntry → Bool
  | .line t => t == "Migrating users..." || t == "Migrating queries..." ||
      t == "Migrating chats..." || t == "Migrating messages..." ||
      t == "All migrations complete!"
  | .lineObj _ _ => false

/-- The banners printed up to and including the phase of collection `c`. -/
def bannersUpTo : Collection → List LogEntry
  | .users => [banner .users]
  | .queries => [banner .users, banner .queries]
  | .chats => [banner .users, banner .queries, banner .chats]
  | .messages => [banner .users, banner .queries, banner .chats, banner .messages]

/-- The collection a database call addresses. -/
def DbCall.collection : DbCall → Collection
  | .get c => c
  | .update c _ _ => c

/-- Sequencing of two awaited computations: a rejection skips the second. -/
def andThen (r : Except Err Unit × World) (k : World → Except Err Unit × World) :
    Except Err Unit × World :=
  match r with
  | (.error e, w) => (.error e, w)
  | (.ok (), w) => k w

/-- Effect of one successful call on a document `d` of collection `c`. -/
def stepDoc (c : Collection) (d : DocSnap) : DbCall → DocSnap
  | .get _ => d
  | .update c' id updates => if c' = c then updateDoc id updates d else d

/-- The document `d` of collection `c` after the calls `cs` all succeeded. -/
def docAfter (c : Collection) (cs : List DbCall) (d : DocSnap) : DocSnap :=
  cs.foldl (stepDoc c) d

/-- The steps of the phases that come before the phase of collection `c`. -/
def phasesBefore (s : Store) : Collection → List Step
  | .users => []
  | .queries => Step.say (banner .users) :: phaseSteps .users s.users
  | .chats => (Step.say (banner .users) :: phaseSteps .users s.users) ++
      (Step.say (banner .queries) :: phaseSteps .queries s.queries)
  | .messages => (Step.say (banner .users) :: phaseSteps .users s.users) ++
      ((Step.say (banner .queries) :: phaseSteps .queries s.queries) ++
      (Step.say (banner .chats) :: phaseSteps .chats s.chats))

/-- Position of a collection in the fixed phase order. -/
def Collection.index : Collection → Nat
  | .users => 0
  | .queries => 1
  | .chats => 2
  | .messages => 3

/-- The environment in which exactly the call number `n` fails, with error `e`. -/
def failAt (n : Nat) (e : Err) : Faults :=
  fun k => if k = n then some e else none

/-- A small store to run the script on: one document per collection, none of
them migrated yet. -/
def sampleStore : Store :=
  ⟨[⟨"u1", [("name", .string "Ann")]⟩],
   [⟨"q1", [("status", .string "open")]⟩],
   [⟨"c1", []⟩],
   [⟨"m1", [("text", .string "hi")]⟩]⟩

/-! ## Objects -/

theorem Obj.get_set (o : Obj) (k k' : String) (v : Value) :
    (Obj.set o k v).get k' = if k = k' then some v else o.get k' := by
  induction o with
  | nil => simp [Obj.set, Obj.get]
  | cons hd tl ih =>
    obtain ⟨a, b⟩ := hd
    by_cases h : a = k
    · subst h
      by_cases h' : a = k' <;> simp [Obj.set, Obj.get, h']
    · by_cases h' : a = k'
      · subst h'
        simp [Obj.set, Obj.get, h, Ne.symm h]
      · simp [Obj.set, Obj.get, h, h', ih]

theorem Obj.has_eq (o : Obj) (k : String) : o.has k = (o.get k).isSome := by
  induction o with
  | nil => simp [Obj.has, Obj.get]
  | cons hd tl ih =>
    obtain ⟨a, b⟩ := hd
    by_cases h : a = k <;> simp [Obj.has, Obj.get, h, ih]

theorem Obj.merge_cons (o : Obj) (k : String) (v : Value) (u : Obj) :
    Obj.merge o ((k, v) :: u) = Obj.merge (Obj.set o k v) u := rfl

theorem Obj.get_merge_of_not_mem (u o : Obj) (k : String) (h : k ∉ Obj.keys u) :
    (Obj.merge o u).get k = o.get k := by
  induction u generalizing o with
  | nil => rfl
  | cons hd tl ih =>
    obtain ⟨a, b⟩ := hd
    simp [Obj.keys] at h
    rw [Obj.merge_cons, ih _ (by simpa [Obj.keys] using h.2), Obj.get_set]
    simp [Ne.symm h.1]

theorem queriesUpdates_eq (data : Obj) :
    queriesUpdates data =
      (if truthy (data.get "status") then [] else [("status", Value.string "pending")]) ++
      (if data.has "assignedTo" then [] else [("assignedTo", Value.null)]) ++
      (if data.has "assignedBy" then [] else [("assignedBy", Value.null)]) ++
      (if data.has "assignedAt" then [] else [("assignedAt", Value.null)]) ++
      (if data.has "resolvedAt" then [] else [("resolvedAt", Value.null)]) := by
  unfold queriesUpdates
  cases truthy (data.get "status") <;> cases data.has "assignedTo" <;>
    cases data.has "assignedBy" <;> cases data.has "assignedAt" <;>
    cases data.has "resolvedAt" <;> rfl

theorem usersUpdates_eq (data : Obj) :
    usersUpdates data =
      if truthy (data.get "role") then []
      else if isUndefined (data.get "isOnline") then
        [("role", Value.string "agent"), ("isOnline", Value.bool false)]
      else [("role", Value.string "agent")] := by
  unfold usersUpdates
  cases truthy (data.get "role") <;> cases isUndefined (data.get "isOnline") <;> rfl

/-! ## The script runs its straight-line form -/

theorem andThen_ok (w : World) (k : World → Except Err Unit × World) :
    andThen (.ok (), w) k = k w := rfl

theorem execPlan_append (f : Faults) (p q : List Step) (w : World) :
    execPlan f (p ++ q) w = andThen (execPlan f p w) (execPlan f q) := by
  induction p generalizing w with
  | nil => rfl
  | cons st rest ih =>
    cases st with
    | say l => exact ih _
    | call c =>
      simp only [List.cons_append, execPlan]
      cases f w.calls.length with
      | none => exact ih _
      | some e => rfl

theorem forOf_cons (body : DocSnap → World → Except Err Unit × World) (d : DocSnap)
    (ds : List DocSnap) (w : World) :
    forOf body (d :: ds) w = andThen (body d w) (forOf body ds) := by
  rw [forOf]
  rcases body d w with ⟨_ | _, w'⟩ <;> rfl

theorem usersBody_eq (f : Faults) (d : DocSnap) (w : World) :
    usersBody f d w = execPlan f (docSteps .users d) w := by
  unfold usersBody docSteps patchOf
  by_cases h : (Obj.keys (usersUpdates d.data)).length > 0
  · simp only [h, if_true, execPlan, refUpdate]
    cases f w.calls.length <;> rfl
  · simp only [h, if_false, execPlan]

theorem queriesBody_eq (f : Faults) (d : DocSnap) (w : World) :
    queriesBody f d w = execPlan f (docSteps .queries d) w := by
  unfold queriesBody docSteps patchOf
  by_cases h : (Obj.keys (queriesUpdates d.data)).length > 0
  · simp only [h, if_true, execPlan, refUpdate]
    cases f w.calls.length <;> rfl
  · simp only [h, if_false, execPlan]

theorem chatsBody_eq (f : Faults) (d : DocSnap) (w : World) :
    chatsBody f d w = execPlan f (docSteps .chats d) w := by
  unfold chatsBody docSteps patchOf
  cases h : truthy (d.data.get "participants")
  · simp only [h, Bool.not_false, if_true, Obj.keys, List.map, List.length, execPlan, refUpdate]
    cases f w.calls.length <;> rfl
  · simp only [h, Bool.not_true, Obj.keys, List.map, List.length, execPlan]
    rfl

theorem messagesBody_eq (f : Faults) (d : DocSnap) (w : World) :
    messagesBody f d w = execPlan f (docSteps .messages d) w := by
  unfold messagesBody docSteps patchOf
  cases h : truthy (d.data.get "status")
  · simp only [h, Bool.not_false, if_true, Obj.keys, List.map, List.length, execPlan, refUpdate]
    cases f w.calls.length <;> rfl
  · simp only [h, Bool.not_true, Obj.keys, List.map, List.length, execPlan]
    rfl

theorem forOf_eq (f : Faults) (c : Collection)
    (body : DocSnap → World → Except Err Unit × World)
    (hb : ∀ d w, body d w = execPlan f (docSteps c d) w) (docs : List DocSnap) (w : World) :
    forOf body docs w = execPlan f (collSteps c docs) w := by
  induction docs generalizing w with
  | nil => rfl
  | cons d ds ih =>
    rw [forOf_cons, collSteps, execPlan_append, hb]
    congr 1
    funext w'
    exact ih w'

theorem phase_eq (f : Faults) (c : Collection)
    (body : DocSnap → World → Except Err Unit × World)
    (hb : ∀ d w, body d w = execPlan f (docSteps c d) w) (w : World) :
    (match collectionGet f c w with
      | (.error e, w') => (Except.error e, w')
      | (.ok docs, w') => forOf body docs w') =
    execPlan f (phaseSteps c (w.store.coll c)) w := by
  simp only [collectionGet, phaseSteps, execPlan]
  cases f w.calls.length with
  | none => simp only [forOf_eq f c body hb]; rfl
  | some e => rfl

theorem migrateUsers_eq (f : Faults) (w : World) :
    migrateUsers f w = execPlan f (phaseSteps .users w.store.users) w :=
  phase_eq f .users (usersBody f) (usersBody_eq f) w

theorem migrateQueries_eq (f : Faults) (w : World) :
    migrateQueries f w = execPlan f (phaseSteps .queries w.store.queries) w :=
  phase_eq f .queries (queriesBody f) (queriesBody_eq f) w

theorem migrateChats_eq (f : Faults) (w : World) :
    migrateChats f w = execPlan f (phaseSteps .chats w.store.chats) w :=
  phase_eq f .chats (chatsBody f) (chatsBody_eq f) w

theorem migrateMessages_eq (f : Faults) (w : World) :
    migrateMessages f w = execPlan f (phaseSteps .messages w.store.messages) w :=
  phase_eq f .messages (messagesBody f) (messagesBody_eq f) w

/-! ## What a straight-line run leaves behind -/

theorem callsOf_append (p q : List Step) : callsOf (p ++ q) = callsOf p ++ callsOf q := by
  induction p with
  | nil => rfl
  | cons st rest ih => cases st <;> simp [callsOf, ih]

theorem logsOf_append (p q : List Step) : logsOf (p ++ q) = logsOf p ++ logsOf q := by
  induction p with
  | nil => rfl
  | cons st rest ih => cases st <;> simp [logsOf, ih]

theorem execPlan_ok (f : Faults) (p : List Step) (w w' : World)
    (h : execPlan f p w = (.ok (), w')) :
    w'.calls = w.calls ++ callsOf p ∧ w'.store = replay w.store (callsOf p) ∧
    w'.stdout = w.stdout ++ logsOf p ∧ w'.stderr = w.stderr ∧
    ∀ j, j < (callsOf p).length → f (w.calls.length + j) = none := by
  induction p generalizing w with
  | nil =>
    simp only [execPlan, Prod.mk.injEq, true_and] at h
    subst h
    simp [callsOf, logsOf, replay]
  | cons st rest ih =>
    cases st with
    | say l =>
      obtain ⟨h1, h2, h3, h4, h5⟩ := ih _ h
      refine ⟨h1, h2, ?_, h4, h5⟩
      simp [h3, consoleLog, logsOf]
    | call c =>
      simp only [execPlan] at h
      cases hf : f w.calls.length with
      | some e => simp [hf] at h
      | none =>
        simp only [hf] at h
        obtain ⟨h1, h2, h3, h4, h5⟩ := ih _ h
        refine ⟨?_, ?_, ?_, h4, ?_⟩
        · simp [h1, callsOf]
        · simp [h2, callsOf, replay]
        · simp [h3, logsOf]
        · intro j hj
          cases j with
          | zero => simpa using hf
          | succ j =>
            have := h5 j (by simpa [callsOf] using hj)
            simp only [List.length_append, List.length_singleton] at this
            rw [← this]
            congr 1
            omega

theorem execPlan_error (f : Faults) (p : List Step) (w w' : World) (e : Err)
    (h : execPlan f p w = (.error e, w')) :
    ∃ done failed rest, p = done ++ Step.call failed :: rest ∧
      w'.calls = w.calls ++ callsOf done ++ [failed] ∧
      w'.store = replay w.store (callsOf done) ∧
      w'.stdout = w.stdout ++ logsOf done ∧ w'.stderr = w.stderr ∧
      f (w.calls.length + (callsOf done).length) = some e ∧
      ∀ j, j < (callsOf done).length → f (w.calls.length + j) = none := by
  induction p generalizing w with
  | nil => simp [execPlan] at h
  | cons st rest ih =>
    cases st with
    | say l =>
      obtain ⟨done, failed, tl, hp, h1, h2, h3, h4, h5, h6⟩ := ih _ h
      refine ⟨Step.say l :: done, failed, tl, by simp [hp], ?_, ?_, ?_, h4, ?_, ?_⟩
      · simpa [callsOf] using h1
      · simpa [callsOf] using h2
      · simp [h3, consoleLog, logsOf]
      · simpa [callsOf] using h5
      · simpa [callsOf] using h6
    | call c =>
      simp only [execPlan] at h
      cases hf : f w.calls.length with
      | some e' =>
        simp only [hf, Prod.mk.injEq, Except.error.injEq] at h
        obtain ⟨he, hw⟩ := h
        subst he hw
        exact ⟨[], c, rest, rfl, by simp [callsOf], by simp [callsOf, replay],
          by simp [logsOf], rfl, by simpa [callsOf] using hf, by simp [callsOf]⟩
      | none =>
        simp only [hf] at h
        obtain ⟨done, failed, tl, hp, h1, h2, h3, h4, h5, h6⟩ := ih _ h
        refine ⟨Step.call c :: done, failed, tl, by simp [hp], ?_, ?_, ?_, h4, ?_, ?_⟩
        · simp [h1, callsOf]
        · simp [h2, callsOf, replay]
        · simp [h3, logsOf]
        · simp only [List.length_append, List.length_singleton] at h5
          rw [← h5]
          congr 1
          simp [callsOf]
          omega
        · intro j hj
          cases j with
          | zero => simpa using hf
          | succ j =>
            have := h6 j (by simpa [callsOf] using hj)
            simp only [List.length_append, List.length_singleton] at this
            rw [← this]
            congr 1
            omega

/-! ## Stores -/

theorem Store.coll_setColl (s : Store) (c c' : Collection) (docs : List DocSnap) :
    (s.setColl c docs).coll c' = if c' = c then docs else s.coll c' := by
  cases c <;> cases c' <;> rfl

theorem Store.coll_update (s : Store) (c c' : Collection) (id : String) (u : Obj) :
    (s.update c id u).coll c' =
      if c' = c then (s.coll c).map (updateDoc id u) else s.coll c' := by
  rw [Store.update, Store.coll_setColl]

theorem Store.uniqueIds_coll (s : Store) (h : s.uniqueIds) (c : Collection) :
    ((s.coll c).map DocSnap.id).Nodup := by
  obtain ⟨h1, h2, h3, h4⟩ := h
  cases c
  · exact h1
  · exact h2
  · exact h3
  · exact h4

theorem updateDoc_id (id : String) (u : Obj) (d : DocSnap) : (updateDoc id u d).id = d.id := by
  unfold updateDoc
  split <;> rfl

theorem updateDoc_nil (id : String) (d : DocSnap) : updateDoc id [] d = d := by
  unfold updateDoc
  split <;> rfl

theorem updateDoc_of_ne (id : String) (u : Obj) (d : DocSnap) (h : d.id ≠ id) :
    updateDoc id u d = d := by
  simp [updateDoc, h]

theorem stepDoc_id (c : Collection) (d : DocSnap) (x : DbCall) : (stepDoc c d x).id = d.id := by
  cases x with
  | get c' => rfl
  | update c' id u =>
    simp only [stepDoc]
    split
    · exact updateDoc_id id u d
    · rfl

theorem applyCall_coll (s : Store) (x : DbCall) (c : Collection) :
    (applyCall s x).coll c = (s.coll c).map (fun d => stepDoc c d x) := by
  cases x with
  | get c' => simp [applyCall, stepDoc]
  | update c' id u =>
    simp only [applyCall, Store.coll_update, stepDoc]
    by_cases h : c = c'
    · subst h
      simp
    · simp [h, Ne.symm h]

theorem replay_coll (cs : List DbCall) (s : Store) (c : Collection) :
    (replay s cs).coll c = (s.coll c).map (docAfter c cs) := by
  induction cs generalizing s with
  | nil =>
    have : docAfter c [] = id := rfl
    simp [replay, this]
  | cons x xs ih =>
    have : replay s (x :: xs) = replay (applyCall s x) xs := rfl
    rw [this, ih, applyCall_coll, List.map_map]
    rfl

theorem docAfter_append (c : Collection) (a b : List DbCall) (d : DocSnap) :
    docAfter c (a ++ b) d = docAfter c b (docAfter c a d) := by
  simp [docAfter, List.foldl_append]

theorem docAfter_other (c : Collection) (cs : List DbCall) (d : DocSnap)
    (h : ∀ x ∈ cs, x.collection ≠ c) : docAfter c cs d = d := by
  induction cs generalizing d with
  | nil => rfl
  | cons x xs ih =>
    have hx := h x (List.mem_cons_self _ _)
    have : docAfter c (x :: xs) d = docAfter c xs (stepDoc c d x) := rfl
    rw [this]
    have hs : stepDoc c d x = d := by
      cases x with
      | get c' => rfl
      | update c' id u =>
        simp only [DbCall.collection] at hx
        simp [stepDoc, hx]
    rw [hs]
    exact ih d (fun y hy => h y (List.mem_cons_of_mem _ hy))

theorem callsOf_collSteps_collection (c : Collection) (docs : List DocSnap) :
    ∀ x ∈ callsOf (collSteps c docs), x.collection = c := by
  induction docs with
  | nil => simp [collSteps, callsOf]
  | cons d ds ih =>
    intro x hx
    rw [collSteps, callsOf_append, List.mem_append] at hx
    rcases hx with hx | hx
    · unfold docSteps at hx
      split at hx
      · simp only [callsOf, List.mem_singleton] at hx
        subst hx
        rfl
      · simp [callsOf] at hx
    · exact ih x hx

theorem callsOf_phaseSteps_collection (c : Collection) (docs : List DocSnap) :
    ∀ x ∈ callsOf (phaseSteps c docs), x.collection = c := by
  intro x hx
  simp only [phaseSteps, callsOf, List.mem_cons] at hx
  rcases hx with hx | hx
  · subst hx
    rfl
  · exact callsOf_collSteps_collection c docs x hx

theorem docAfter_docSteps (c : Collection) (x d : DocSnap) :
    docAfter c (callsOf (docSteps c x)) d = updateDoc x.id (patchOf c x.data) d := by
  unfold docSteps
  split
  · simp [callsOf, docAfter, stepDoc]
  · rename_i h
    have h0 : patchOf c x.data = [] := by
      cases hp : patchOf c x.data with
      | nil => rfl
      | cons a b => simp [hp, Obj.keys] at h
    rw [h0, updateDoc_nil]
    rfl

theorem docAfter_collSteps_of_not_mem (c : Collection) (docs : List DocSnap) (d : DocSnap)
    (h : d.id ∉ docs.map DocSnap.id) : docAfter c (callsOf (collSteps c docs)) d = d := by
  induction docs with
  | nil => rfl
  | cons x xs ih =>
    simp only [List.map_cons, List.mem_cons, not_or] at h
    rw [collSteps, callsOf_append, docAfter_append, docAfter_docSteps,
      updateDoc_of_ne _ _ _ h.1]
    exact ih h.2

theorem docAfter_collSteps (c : Collection) (docs : List DocSnap) (d : DocSnap)
    (hn : (docs.map DocSnap.id).Nodup) (hd : d ∈ docs) :
    docAfter c (callsOf (collSteps c docs)) d = ⟨d.id, Obj.merge d.data (patchOf c d.data)⟩ := by
  induction docs with
  | nil => simp at hd
  | cons x xs ih =>
    simp only [List.map_cons, List.nodup_cons] at hn
    rw [collSteps, callsOf_append, docAfter_append, docAfter_docSteps]
    by_cases hx : d = x
    · subst hx
      have : updateDoc d.id (patchOf c d.data) d = ⟨d.id, Obj.merge d.data (patchOf c d.data)⟩ := by
        simp [updateDoc]
      rw [this]
      exact docAfter_collSteps_of_not_mem c xs _ hn.1
    · have hmem : d ∈ xs := by
        rcases List.mem_cons.1 hd with h | h
        · exact absurd h hx
        · exact h
      have hne : d.id ≠ x.id := by
        intro he
        exact hn.1 (he ▸ List.mem_map_of_mem DocSnap.id hmem)
      rw [updateDoc_of_ne _ _ _ hne]
      exact ih hn.2 hmem

/-! ## The whole run -/

theorem runMigrations_andThen (f : Faults) (w : World) :
    runMigrations f w =
      andThen (migrateUsers f (consoleLog (banner .users) w)) (fun w1 =>
      andThen (migrateQueries f (consoleLog (banner .queries) w1)) (fun w2 =>
      andThen (migrateChats f (consoleLog (banner .chats) w2)) (fun w3 =>
      andThen (migrateMessages f (consoleLog (banner .messages) w3)) (fun w4 =>
      (.ok (), consoleLog completeLine w4))))) := by
  unfold runMigrations
  simp only [banner, completeLine]
  rcases migrateUsers f (consoleLog (.line "Migrating users...") w) with ⟨_ | ⟨⟨⟩⟩, w1⟩
  · rfl
  simp only [andThen_ok]
  rcases migrateQueries f (consoleLog (.line "Migrating queries...") w1) with ⟨_ | ⟨⟨⟩⟩, w2⟩
  · rfl
  simp only [andThen_ok]
  rcases migrateChats f (consoleLog (.line "Migrating chats...") w2) with ⟨_ | ⟨⟨⟩⟩, w3⟩
  · rfl
  simp only [andThen_ok]
  rcases migrateMessages f (consoleLog (.line "Migrating messages...") w3) with ⟨_ | ⟨⟨⟩⟩, w4⟩
  · rfl
  rfl

theorem phase_store_other (f : Faults) (c c' : Collection) (docs : List DocSnap)
    (w w' : World) (r : Except Err Unit) (h : execPlan f (phaseSteps c docs) w = (r, w'))
    (hc : c' ≠ c) : w'.store.coll c' = w.store.coll c' := by
  have hs : ∃ cs : List DbCall, (∀ x ∈ cs, x.collection = c) ∧ w'.store = replay w.store cs := by
    cases r with
    | ok u =>
      exact ⟨_, callsOf_phaseSteps_collection c docs, (execPlan_ok f _ w w' h).2.1⟩
    | error e =>
      obtain ⟨done, failed, tl, hp, -, h2, -⟩ := execPlan_error f _ w w' e h
      refine ⟨callsOf done, ?_, h2⟩
      intro x hx
      apply callsOf_phaseSteps_collection c docs
      rw [hp, callsOf_append]
      exact List.mem_append_left _ hx
  obtain ⟨cs, hcs, hst⟩ := hs
  rw [hst, replay_coll]
  have : ∀ d ∈ w.store.coll c', docAfter c' cs d = d := fun d _ =>
    docAfter_other c' cs d (fun x hx => by rw [hcs x hx]; exact Ne.symm hc)
  rw [List.map_congr_left this]
  simp

theorem phase_step (f : Faults) (c : Collection) (rest : List Step) (w : World)
    (docs : List DocSnap) (hdocs : w.store.coll c = docs)
    (m : Faults → World → Except Err Unit × World)
    (hm : ∀ w, m f w = execPlan f (phaseSteps c (w.store.coll c)) w)
    (K : World → Except Err Unit × World)
    (hK : ∀ w1, (∀ c', c' ≠ c → w1.store.coll c' = w.store.coll c') →
      K w1 = execPlan f rest w1) :
    andThen (m f (consoleLog (banner c) w)) K =
      execPlan f ((Step.say (banner c) :: phaseSteps c docs) ++ rest) w := by
  subst hdocs
  have hsay : ∀ p, execPlan f (Step.say (banner c) :: p) w =
      execPlan f p (consoleLog (banner c) w) := fun _ => rfl
  rw [List.cons_append, hsay, execPlan_append, hm]
  have hst : (consoleLog (banner c) w).store = w.store := rfl
  rw [hst]
  rcases h : execPlan f (phaseSteps c (w.store.coll c)) (consoleLog (banner c) w)
    with ⟨_ | ⟨⟨⟩⟩, w1⟩
  · rfl
  · simp only [andThen_ok]
    apply hK
    intro c' hc
    exact phase_store_other f c c' _ (consoleLog (banner c) w) w1 _ h hc

theorem runMigrations_eq (f : Faults) (w : World) :
    runMigrations f w = execPlan f (fullPlan w.store) w := by
  rw [runMigrations_andThen, fullPlan]
  refine phase_step f .users _ w _ rfl migrateUsers (migrateUsers_eq f) _ ?_
  intro w1 h1
  refine phase_step f .queries _ w1 _ (h1 .queries (by decide)) migrateQueries
    (migrateQueries_eq f) _ ?_
  intro w2 h2
  refine phase_step f .chats _ w2 _ ((h2 .chats (by decide)).trans (h1 .chats (by decide)))
    migrateChats (migrateChats_eq f) _ ?_
  intro w3 h3
  have h4 : w3.store.coll .messages = w.store.messages :=
    (h3 .messages (by decide)).trans
      ((h2 .messages (by decide)).trans (h1 .messages (by decide)))
  have := phase_step f .messages [Step.say completeLine] w3 _ h4 migrateMessages
    (migrateMessages_eq f) (fun w4 => (.ok (), consoleLog completeLine w4)) (fun w4 _ => rfl)
  exact this

/-! ## The default rules, document by document -/

theorem Obj.has_set (o : Obj) (k k' : String) (v : Value) :
    (Obj.set o k v).has k' = if k = k' then true else o.has k' := by
  rw [Obj.has_eq, Obj.get_set, Obj.has_eq]
  split <;> rfl

theorem Obj.has_of_get (o : Obj) (k : String) (v : Value) (h : o.get k = some v) :
    o.has k = true := by
  rw [Obj.has_eq, h]
  rfl

theorem usersBody_of_nil (f : Faults) (id : String) (data : Obj) (w : World)
    (h : usersUpdates data = []) : usersBody f ⟨id, data⟩ w = (.ok (), w) := by
  simp [usersBody, h, Obj.keys]

theorem queriesBody_of_nil (f : Faults) (id : String) (data : Obj) (w : World)
    (h : queriesUpdates data = []) : queriesBody f ⟨id, data⟩ w = (.ok (), w) := by
  simp [queriesBody, h, Obj.keys]

theorem chatsBody_of_truthy (f : Faults) (id : String) (data : Obj) (w : World)
    (h : truthy (data.get "participants") = true) : chatsBody f ⟨id, data⟩ w = (.ok (), w) := by
  simp [chatsBody, h]

theorem messagesBody_of_truthy (f : Faults) (id : String) (data : Obj) (w : World)
    (h : truthy (data.get "status") = true) : messagesBody f ⟨id, data⟩ w = (.ok (), w) := by
  simp [messagesBody, h]

theorem truthy_string_agent : truthy (some (.string "agent")) = true := by decide

theorem truthy_string_pending : truthy (some (.string "pending")) = true := by decide

theorem truthy_string_sent : truthy (some (.string "sent")) = true := by decide

theorem truthy_map (m : List (String × Value)) : truthy (some (.map m)) = true := rfl

theorem usersUpdates_merge (data : Obj) :
    usersUpdates (Obj.merge data (usersUpdates data)) = [] := by
  have h : truthy ((Obj.merge data (usersUpdates data)).get "role") = true := by
    rw [usersUpdates_eq data]
    cases h1 : truthy (data.get "role") <;> cases h2 : isUndefined (data.get "isOnline") <;>
      simp [Obj.merge, Obj.get_set, truthy_string_agent, h1]
  rw [usersUpdates_eq, h]
  rfl

theorem queriesUpdates_merge (data : Obj) :
    queriesUpdates (Obj.merge data (queriesUpdates data)) = [] := by
  have h : truthy ((Obj.merge data (queriesUpdates data)).get "status") = true ∧
      (Obj.merge data (queriesUpdates data)).has "assignedTo" = true ∧
      (Obj.merge data (queriesUpdates data)).has "assignedBy" = true ∧
      (Obj.merge data (queriesUpdates data)).has "assignedAt" = true ∧
      (Obj.merge data (queriesUpdates data)).has "resolvedAt" = true := by
    rw [queriesUpdates_eq data]
    cases h1 : truthy (data.get "status") <;> cases h2 : data.has "assignedTo" <;>
      cases h3 : data.has "assignedBy" <;> cases h4 : data.has "assignedAt" <;>
      cases h5 : data.has "resolvedAt" <;>
      simp [Obj.merge, Obj.get_set, Obj.has_set, truthy_string_pending, h1, h2, h3, h4, h5]
  obtain ⟨h1, h2, h3, h4, h5⟩ := h
  rw [queriesUpdates_eq, h1, h2, h3, h4, h5]
  rfl

/-- C1: every default rule is idempotent.  For any document `data`, merging in
the patch its collection's rule computes gives a document for which the same
rule computes the empty patch and the loop body issues no update (for chats
and messages the patch is the literal update, or nothing). -/
theorem default_rules_idempotent (data : Obj) (f : Faults) (id : String) (w : World) :
    (usersUpdates (Obj.merge data (usersUpdates data)) = [] ∧
      usersBody f ⟨id, Obj.merge data (usersUpdates data)⟩ w = (.ok (), w)) ∧
    (queriesUpdates (Obj.merge data (queriesUpdates data)) = [] ∧
      queriesBody f ⟨id, Obj.merge data (queriesUpdates data)⟩ w = (.ok (), w)) ∧
    (patchOf .chats (Obj.merge data (patchOf .chats data)) = [] ∧
      chatsBody f ⟨id, Obj.merge data (patchOf .chats data)⟩ w = (.ok (), w)) ∧
    (patchOf .messages (Obj.merge data (patchOf .messages data)) = [] ∧
      messagesBody f ⟨id, Obj.merge data (patchOf .messages data)⟩ w = (.ok (), w)) := by
  have hc : truthy ((Obj.merge data (patchOf .chats data)).get "participants") = true := by
    simp only [patchOf]
    cases h : truthy (data.get "participants") <;> simp [Obj.merge, Obj.get_set, truthy_map, h]
  have hm : truthy ((Obj.merge data (patchOf .messages data)).get "status") = true := by
    simp only [patchOf]
    cases h : truthy (data.get "status") <;> simp [Obj.merge, Obj.get_set, truthy_string_sent, h]
  refine ⟨⟨usersUpdates_merge data, usersBody_of_nil f id _ w (usersUpdates_merge data)⟩,
    ⟨queriesUpdates_merge data, queriesBody_of_nil f id _ w (queriesUpdates_merge data)⟩,
    ⟨?_, chatsBody_of_truthy f id _ w hc⟩, ⟨?_, messagesBody_of_truthy f id _ w hm⟩⟩
  · have : patchOf .chats (Obj.merge data (patchOf .chats data)) =
        if !truthy ((Obj.merge data (patchOf .chats data)).get "participants") then
          [("participants", .map [])] else [] := rfl
    rw [this, hc]
    rfl
  · have : patchOf .messages (Obj.merge data (patchOf .messages data)) =
        if !truthy ((Obj.merge data (patchOf .messages data)).get "status") then
          [("status", .string "sent")] else [] := rfl
    rw [this, hm]
    rfl

/-- C2: the users rule.  With a falsy `role` the patch is exactly
`{role: "agent", isOnline: false}` when `isOnline` is undefined and exactly
`{role: "agent"}` otherwise; with a truthy `role` the patch is empty and the
loop body issues no update, whatever `isOnline` is.  Missing, `""`, `null`,
`0` and `false` are falsy; `"lead"` and `"agent"` are truthy. -/
theorem users_rule_coupling (data : Obj) (f : Faults) (id : String) (w : World) :
    (truthy (data.get "role") = false → isUndefined (data.get "isOnline") = true →
      usersUpdates data = [("role", .string "agent"), ("isOnline", .bool false)]) ∧
    (truthy (data.get "role") = false → isUndefined (data.get "isOnline") = false →
      usersUpdates data = [("role", .string "agent")]) ∧
    (truthy (data.get "role") = true →
      usersUpdates data = [] ∧ usersBody f ⟨id, data⟩ w = (.ok (), w)) ∧
    (truthy none = false ∧ truthy (some (.string "")) = false ∧
      truthy (some .null) = false ∧ truthy (some (.number .zero)) = false ∧
      truthy (some (.bool false)) = false ∧ truthy (some (.string "lead")) = true ∧
      truthy (some (.string "agent")) = true) := by
  refine ⟨?_, ?_, ?_, ?_⟩
  · intro h1 h2
    rw [usersUpdates_eq, h1, h2]
    rfl
  · intro h1 h2
    rw [usersUpdates_eq, h1, h2]
    rfl
  · intro h1
    have h : usersUpdates data = [] := by
      rw [usersUpdates_eq, h1]
      rfl
    exact ⟨h, usersBody_of_nil f id data w h⟩
  · decide

/-- Witness for C2 on the two documents the specification names: no fields at
all, and `{role: "lead"}`. -/
theorem users_rule_coupling_witness :
    usersUpdates [] = [("role", .string "agent"), ("isOnline", .bool false)] ∧
    usersUpdates [("role", .string "lead")] = [] :=
  ⟨(users_rule_coupling [] noFaults "u1" (World.init ⟨[], [], [], []⟩)).1 rfl rfl,
   ((users_rule_coupling [("role", .string "lead")] noFaults "u1"
      (World.init ⟨[], [], [], []⟩)).2.2.1 rfl).1⟩

/-- C3: the queries rule.  The patch holds `status: "pending"` exactly when
`status` is falsy, holds each of the four assignment keys with value `null`
exactly when that key is absent from the document (a key that is present,
also with value `null`, is not patched), holds no other key, and for the
empty document is the full five-field patch. -/
theorem queries_rule_completeness (data : Obj) :
    (Obj.get (queriesUpdates data) "status" =
      if truthy (data.get "status") then none else some (.string "pending")) ∧
    (∀ k ∈ ["assignedTo", "assignedBy", "assignedAt", "resolvedAt"],
      Obj.get (queriesUpdates data) k = if data.has k then none else some .null) ∧
    (∀ k ∈ ["assignedTo", "assignedBy", "assignedAt", "resolvedAt"],
      data.get k = some .null → Obj.get (queriesUpdates data) k = none) ∧
    (∀ k ∈ Obj.keys (queriesUpdates data),
      k ∈ ["status", "assignedTo", "assignedBy", "assignedAt", "resolvedAt"]) ∧
    queriesUpdates [] = [("status", .string "pending"), ("assignedTo", .null),
      ("assignedBy", .null), ("assignedAt", .null), ("resolvedAt", .null)] := by
  have h2 : ∀ k ∈ ["assignedTo", "assignedBy", "assignedAt", "resolvedAt"],
      Obj.get (queriesUpdates data) k = if data.has k then none else some .null := by
    rw [queriesUpdates_eq]
    cases truthy (data.get "status") <;> cases h2 : data.has "assignedTo" <;>
      cases h3 : data.has "assignedBy" <;> cases h4 : data.has "assignedAt" <;>
      cases h5 : data.has "resolvedAt" <;> simp [Obj.get, h2, h3, h4, h5]
  refine ⟨?_, h2, ?_, ?_, rfl⟩
  · rw [queriesUpdates_eq]
    cases truthy (data.get "status") <;> cases data.has "assignedTo" <;>
      cases data.has "assignedBy" <;> cases data.has "assignedAt" <;>
      cases data.has "resolvedAt" <;> simp [Obj.get]
  · intro k hk hv
    rw [h2 k hk, Obj.has_of_get data k _ hv]
    rfl
  · rw [queriesUpdates_eq]
    cases truthy (data.get "status") <;> cases data.has "assignedTo" <;>
      cases data.has "assignedBy" <;> cases data.has "assignedAt" <;>
      cases data.has "resolvedAt" <;> simp [Obj.keys]

/-- Witness for C3: a document whose `assignedTo` is present with value `null`
gets no patch for that key. -/
theorem queries_rule_completeness_witness :
    Obj.get (queriesUpdates [("assignedTo", .null)]) "assignedTo" = none :=
  (queries_rule_completeness [("assignedTo", .null)]).2.2.1 "assignedTo" (by decide) rfl

/-- C4: the chats rule.  For a chat document whose `participants` is falsy,
in particular one without the key, the loop body issues exactly one call, the
update `{participants: {}}` on that document, and applies it when the call
succeeds; for one whose `participants` is a non-empty mapping it issues
nothing and changes nothing. -/
theorem chats_rule (f : Faults) (id : String) (data : Obj) (w : World) :
    (truthy (data.get "participants") = false →
      (chatsBody f ⟨id, data⟩ w).2.calls =
        w.calls ++ [DbCall.update .chats id [("participants", .map [])]] ∧
      (f w.calls.length = none → (chatsBody f ⟨id, data⟩ w).2.store =
        w.store.update .chats id [("participants", .map [])])) ∧
    (data.has "participants" = false → truthy (data.get "participants") = false) ∧
    (∀ kv rest, data.get "participants" = some (.map (kv :: rest)) →
      chatsBody f ⟨id, data⟩ w = (.ok (), w)) := by
  refine ⟨?_, ?_, ?_⟩
  · intro h
    simp only [chatsBody, h, refUpdate]
    cases hf : f w.calls.length <;> simp [consoleLog]
  · intro h
    rw [Obj.has_eq] at h
    cases hg : data.get "participants" with
    | none => rfl
    | some v => simp [hg] at h
  · intro kv rest h
    exact chatsBody_of_truthy f id data w (by rw [h]; rfl)

/-- Witness for C4: a chat without `participants`, and one with
`participants: {"u1": true}`. -/
theorem chats_rule_witness :
    (chatsBody noFaults ⟨"c1", []⟩ (World.init ⟨[], [], [⟨"c1", []⟩], []⟩)).2.calls =
      [] ++ [DbCall.update .chats "c1" [("participants", .map [])]] ∧
    chatsBody noFaults ⟨"c2", [("participants", .map [("u1", .bool true)])]⟩
      (World.init ⟨[], [], [], []⟩) = (.ok (), World.init ⟨[], [], [], []⟩) :=
  ⟨((chats_rule noFaults "c1" [] (World.init ⟨[], [], [⟨"c1", []⟩], []⟩)).1 rfl).1,
   (chats_rule noFaults "c2" [("participants", .map [("u1", .bool true)])]
      (World.init ⟨[], [], [], []⟩)).2.2 ("u1", .bool true) [] rfl⟩

/-- C5: the messages rule.  The loop body issues a call exactly when `status`
is falsy, and the call is then the update `{status: "sent"}` on that document;
missing, `""`, `null`, `0` and `false` are falsy. -/
theorem messages_rule (f : Faults) (id : String) (data : Obj) (w : World) :
    (messagesBody f ⟨id, data⟩ w).2.calls =
      w.calls ++ (if truthy (data.get "status") then []
        else [DbCall.update .messages id [("status", .string "sent")]]) ∧
    (truthy none = false ∧ truthy (some (.string "")) = false ∧
      truthy (some .null) = false ∧ truthy (some (.number .zero)) = false ∧
      truthy (some (.bool false)) = false) := by
  refine ⟨?_, by decide⟩
  cases h : truthy (data.get "status")
  · simp only [messagesBody, h, refUpdate]
    cases hf : f w.calls.length <;> simp [consoleLog]
  · rw [messagesBody_of_truthy f id data w h]
    simp

/-- C10, as stated, fails: for the chat document `{participants: {}}` the loop
body of `migrateChats` issues no call at all, so not the update the claim
describes. -/
theorem chats_empty_participants_counterexample :
    (chatsBody noFaults ⟨"c1", [("participants", .map [])]⟩
      (World.init ⟨[], [], [⟨"c1", [("participants", .map [])]⟩], []⟩)).2.calls = [] ∧
    (chatsBody noFaults ⟨"c1", [("participants", .map [])]⟩
      (World.init ⟨[], [], [⟨"c1", [("participants", .map [])]⟩], []⟩)).2.calls ≠
      [DbCall.update .chats "c1" [("participants", .map [])]] := by
  constructor
  · rfl
  · intro h
    have h' := congrArg List.length h
    revert h'
    decide

/-- C10, amended: an empty mapping is truthy, so a chat document whose
`participants` is present and is `{}` is left alone (no call, nothing
changed); a numeric `status` of `0` is falsy, so a message with it gets the
update `{status: "sent"}` and a query with it gets `status: "pending"`. -/
theorem chats_empty_participants_kept (f : Faults) (id : String) (data : Obj) (w : World) :
    (data.get "participants" = some (.map []) → chatsBody f ⟨id, data⟩ w = (.ok (), w)) ∧
    (data.get "status" = some (.number .zero) →
      (messagesBody f ⟨id, data⟩ w).2.calls =
        w.calls ++ [DbCall.update .messages id [("status", .string "sent")]] ∧
      Obj.get (queriesUpdates data) "status" = some (.string "pending")) := by
  constructor
  · intro h
    exact chatsBody_of_truthy f id data w (by rw [h]; rfl)
  · intro h
    have ht : truthy (data.get "status") = false := by rw [h]; decide
    constructor
    · simp only [messagesBody, ht, refUpdate]
      cases hf : f w.calls.length <;> simp [consoleLog]
    · rw [queriesUpdates_eq, ht]
      cases data.has "assignedTo" <;> cases data.has "assignedBy" <;>
        cases data.has "assignedAt" <;> cases data.has "resolvedAt" <;> simp [Obj.get]

/-- Witness for the amended C10. -/
theorem chats_empty_participants_kept_witness :
    chatsBody noFaults ⟨"c1", [("participants", .map [])]⟩ (World.init ⟨[], [], [], []⟩) =
      (.ok (), World.init ⟨[], [], [], []⟩) ∧
    Obj.get (queriesUpdates [("status", .number .zero)]) "status" = some (.string "pending") :=
  ⟨(chats_empty_participants_kept noFaults "c1" [("participants", .map [])]
      (World.init ⟨[], [], [], []⟩)).1 rfl,
   ((chats_empty_participants_kept noFaults "q1" [("status", .number .zero)]
      (World.init ⟨[], [], [], []⟩)).2 rfl).2⟩

/-! ## A run that has nothing to do -/

theorem collSteps_eq_nil (c : Collection) (docs : List DocSnap)
    (h : ∀ d ∈ docs, patchOf c d.data = []) : collSteps c docs = [] := by
  induction docs with
  | nil => rfl
  | cons d ds ih =>
    have hd := h d (List.mem_cons_self _ _)
    rw [collSteps, ih (fun x hx => h x (List.mem_cons_of_mem _ hx))]
    simp [docSteps, hd, Obj.keys]

theorem fullPlan_of_satisfiesDefaults (s : Store) (h : satisfiesDefaults s = true) :
    fullPlan s = [.say (banner .users), .call (.get .users), .say (banner .queries),
      .call (.get .queries), .say (banner .chats), .call (.get .chats),
      .say (banner .messages), .call (.get .messages), .say completeLine] := by
  simp only [satisfiesDefaults, Bool.and_eq_true, List.all_eq_true] at h
  obtain ⟨⟨⟨hu, hq⟩, hc⟩, hm⟩ := h
  have h1 : collSteps .users s.users = [] := by
    apply collSteps_eq_nil
    intro d hd
    show usersUpdates d.data = []
    rw [usersUpdates_eq, hu d hd]
    rfl
  have h2 : collSteps .queries s.queries = [] := by
    apply collSteps_eq_nil
    intro d hd
    obtain ⟨⟨⟨⟨a, b⟩, c⟩, e⟩, g⟩ := hq d hd
    show queriesUpdates d.data = []
    rw [queriesUpdates_eq, a, b, c, e, g]
    rfl
  have h3 : collSteps .chats s.chats = [] := by
    apply collSteps_eq_nil
    intro d hd
    simp [patchOf, hc d hd]
  have h4 : collSteps .messages s.messages = [] := by
    apply collSteps_eq_nil
    intro d hd
    simp [patchOf, hm d hd]
  simp [fullPlan, phaseSteps, h1, h2, h3, h4]

/-- C6: the no-op guarantee.  On a store in which every document already has
its defaults, whatever calls fail, the run leaves the store as it was, issues
no update call and prints nothing but banners and the completion line; when
it completes, and it does when no call fails, it printed exactly the four
banners and the completion line and issued exactly the four reads. -/
theorem noop_on_migrated_store (f : Faults) (s : Store) (h : satisfiesDefaults s = true) :
    (runMigrations f (World.init s)).2.store = s ∧
    (∀ c id u, DbCall.update c id u ∉ (runMigrations f (World.init s)).2.calls) ∧
    (∀ l ∈ (runMigrations f (World.init s)).2.stdout,
      l ∈ [banner .users, banner .queries, banner .chats, banner .messages, completeLine]) ∧
    ((runMigrations f (World.init s)).1 = .ok () →
      (runMigrations f (World.init s)).2.stdout =
        [banner .users, banner .queries, banner .chats, banner .messages, completeLine] ∧
      (runMigrations f (World.init s)).2.calls =
        [.get .users, .get .queries, .get .chats, .get .messages]) ∧
    ((∀ n, f n = none) → (runMigrations f (World.init s)).1 = .ok ()) := by
  rw [runMigrations_eq]
  have hs : (World.init s).store = s := rfl
  rw [hs, fullPlan_of_satisfiesDefaults s h]
  cases h0 : f 0 <;> cases h1 : f 1 <;> cases h2 : f 2 <;> cases h3 : f 3 <;>
    simp [execPlan, World.init, consoleLog, applyCall, h0, h1, h2, h3] <;>
    first
      | (refine ⟨0, ?_⟩; simp [h0]; done)
      | (refine ⟨1, ?_⟩; simp [h1]; done)
      | (refine ⟨2, ?_⟩; simp [h2]; done)
      | (refine ⟨3, ?_⟩; simp [h3])

/-- Witness for C6: one already-migrated document in each collection. -/
theorem noop_on_migrated_store_witness :
    (runMigrations noFaults (World.init
      ⟨[⟨"u1", [("role", .string "lead")]⟩],
       [⟨"q1", [("status", .string "open"), ("assignedTo", .null), ("assignedBy", .null),
          ("assignedAt", .null), ("resolvedAt", .null)]⟩],
       [⟨"c1", [("participants", .map [])]⟩],
       [⟨"m1", [("status", .string "read")]⟩]⟩)).2.calls =
      [.get .users, .get .queries, .get .chats, .get .messages] :=
  ((noop_on_migrated_store noFaults _ (by decide)).2.2.2.1
    ((noop_on_migrated_store noFaults _ (by decide)).2.2.2.2 (fun _ => rfl))).2

/-! ## Progress lines are not banners -/

theorem string_ne_of_head (a b : String) (x y : Char) (ta tb : List Char)
    (ha : a.data = x :: ta) (hb : b.data = y :: tb) (hxy : x ≠ y) : a ≠ b := by
  intro h
  rw [h, hb] at ha
  exact hxy (List.cons.inj ha).1.symm

theorem isBanner_updated (t : String) : isBanner (.line ("Updated " ++ t)) = false := by
  have hd : ("Updated " ++ t).data = 'U' :: ("pdated ".data ++ t.data) := rfl
  have h1 := string_ne_of_head _ "Migrating users..." 'U' 'M' _ _ hd rfl (by decide)
  have h2 := string_ne_of_head _ "Migrating queries..." 'U' 'M' _ _ hd rfl (by decide)
  have h3 := string_ne_of_head _ "Migrating chats..." 'U' 'M' _ _ hd rfl (by decide)
  have h4 := string_ne_of_head _ "Migrating messages..." 'U' 'M' _ _ hd rfl (by decide)
  have h5 := string_ne_of_head _ "All migrations complete!" 'U' 'A' _ _ hd rfl (by decide)
  simp [isBanner, h1, h2, h3, h4, h5]

theorem isBanner_logOf (c : Collection) (d : DocSnap) : isBanner (logOf c d) = false := by
  cases c with
  | users => rfl
  | queries => rfl
  | chats =>
    have : logOf .chats d =
        .line ("Updated " ++ ("chat " ++ d.id ++ ": added empty participants")) := by
      have e : ("Updated chat " : String) = "Updated " ++ "chat " := by decide
      simp only [logOf, e, String.append_assoc]
    rw [this]
    exact isBanner_updated _
  | messages =>
    have : logOf .messages d =
        .line ("Updated " ++ ("message " ++ d.id ++ ": set status to sent")) := by
      have e : ("Updated message " : String) = "Updated " ++ "message " := by decide
      simp only [logOf, e, String.append_assoc]
    rw [this]
    exact isBanner_updated _

theorem isBanner_logsOf_collSteps (c : Collection) (docs : List DocSnap) :
    ∀ l ∈ logsOf (collSteps c docs), isBanner l = false := by
  induction docs with
  | nil => simp [collSteps, logsOf]
  | cons d ds ih =>
    intro l hl
    rw [collSteps, logsOf_append, List.mem_append] at hl
    rcases hl with hl | hl
    · unfold docSteps at hl
      split at hl
      · simp only [logsOf, List.mem_singleton] at hl
        subst hl
        exact isBanner_logOf c d
      · simp [logsOf] at hl
    · exact ih l hl

/-! ## Where a failed run stopped -/

theorem split_append {α : Type} (a b done rest : List α) (x : α)
    (h : a ++ b = done ++ x :: rest) :
    (∃ r, a = done ++ x :: r ∧ rest = r ++ b) ∨ (∃ d, done = a ++ d ∧ b = d ++ x :: rest) := by
  rcases List.append_eq_append_iff.1 h with ⟨a', h1, h2⟩ | ⟨c', h1, h2⟩
  · exact Or.inr ⟨a', h1, h2⟩
  · cases c' with
    | nil => exact Or.inr ⟨[], by simpa using h1.symm, by simpa using h2.symm⟩
    | cons y r =>
      simp only [List.cons_append, List.cons.injEq] at h2
      obtain ⟨hy, hr⟩ := h2
      subst hy
      exact Or.inl ⟨r, h1, hr⟩

theorem phase_split (l : LogEntry) (p done rest : List Step) (x : DbCall)
    (h : Step.say l :: p = done ++ Step.call x :: rest) :
    ∃ d, done = Step.say l :: d ∧ p = d ++ Step.call x :: rest := by
  cases done with
  | nil => simp at h
  | cons y d =>
    simp only [List.cons_append, List.cons.injEq] at h
    exact ⟨d, by rw [h.1], h.2⟩

theorem failure_split (s : Store) (done rest : List Step) (failed : DbCall)
    (h : fullPlan s = done ++ Step.call failed :: rest) :
    ∃ c d r, done = phasesBefore s c ++ Step.say (banner c) :: d ∧
      phaseSteps c (s.coll c) = d ++ Step.call failed :: r := by
  unfold fullPlan at h
  rcases split_append _ _ _ _ _ h with ⟨r, h1, -⟩ | ⟨d1, hd1, hq⟩
  · obtain ⟨d, hd, hp⟩ := phase_split _ _ _ _ _ h1
    exact ⟨.users, d, r, by simp [phasesBefore, hd], hp⟩
  rcases split_append _ _ _ _ _ hq with ⟨r, h1, -⟩ | ⟨d2, hd2, hc⟩
  · obtain ⟨d, hd, hp⟩ := phase_split _ _ _ _ _ h1
    exact ⟨.queries, d, r, by simp [phasesBefore, hd1, hd], hp⟩
  rcases split_append _ _ _ _ _ hc with ⟨r, h1, -⟩ | ⟨d3, hd3, hm⟩
  · obtain ⟨d, hd, hp⟩ := phase_split _ _ _ _ _ h1
    exact ⟨.chats, d, r, by simp [phasesBefore, hd1, hd2, hd], hp⟩
  rcases split_append _ _ _ _ _ hm with ⟨r, h1, -⟩ | ⟨d4, -, h4⟩
  · obtain ⟨d, hd, hp⟩ := phase_split _ _ _ _ _ h1
    exact ⟨.messages, d, r, by simp [phasesBefore, hd1, hd2, hd3, hd], hp⟩
  · cases d4 with
    | nil => simp at h4
    | cons y t =>
      simp only [List.cons_append, List.cons.injEq] at h4
      have := h4.2
      simp at this

theorem runMigrations_error (f : Faults) (s : Store) (e : Err) (w' : World)
    (h : runMigrations f (World.init s) = (.error e, w')) :
    ∃ done failed rest, fullPlan s = done ++ Step.call failed :: rest ∧
      w'.calls = callsOf done ++ [failed] ∧ w'.store = replay s (callsOf done) ∧
      w'.stdout = logsOf done ∧ w'.stderr = [] ∧
      f (callsOf done).length = some e ∧
      ∀ j, j < (callsOf done).length → f j = none := by
  rw [runMigrations_eq] at h
  obtain ⟨done, failed, rest, hp, h1, h2, h3, h4, h5, h6⟩ := execPlan_error f _ _ _ e h
  refine ⟨done, failed, rest, hp, ?_, h2, ?_, h4, ?_, ?_⟩
  · simpa [World.init] using h1
  · simpa [World.init] using h3
  · simpa [World.init] using h5
  · simpa [World.init] using h6

theorem isBanner_banner (c : Collection) : isBanner (banner c) = true := by
  cases c <;> decide

theorem filter_isBanner_eq_nil (ls : List LogEntry) (h : ∀ l ∈ ls, isBanner l = false) :
    ls.filter isBanner = [] := by
  rw [List.filter_eq_nil_iff]
  intro l hl
  simp [h l hl]

theorem filter_isBanner_phase (c : Collection) (docs : List DocSnap) :
    (logsOf (Step.say (banner c) :: phaseSteps c docs)).filter isBanner = [banner c] := by
  simp only [phaseSteps, logsOf]
  rw [List.filter_cons_of_pos (isBanner_banner c),
    filter_isBanner_eq_nil _ (isBanner_logsOf_collSteps c docs)]

theorem filter_isBanner_phasesBefore (s : Store) (c : Collection) :
    (logsOf (phasesBefore s c)).filter isBanner ++ [banner c] = bannersUpTo c := by
  cases c <;>
    simp only [phasesBefore, logsOf_append, List.filter_append, filter_isBanner_phase] <;> rfl

theorem filter_isBanner_cut (c : Collection) (docs : List DocSnap) (d r : List Step)
    (x : DbCall) (h : phaseSteps c docs = d ++ Step.call x :: r) :
    (logsOf d).filter isBanner = [] := by
  apply filter_isBanner_eq_nil
  intro l hl
  apply isBanner_logsOf_collSteps c docs
  have : logsOf (phaseSteps c docs) = logsOf (collSteps c docs) := rfl
  rw [← this, h, logsOf_append]
  exact List.mem_append_left _ hl

/-! ## Documents across the phases -/

theorem docAfter_of_no_update (c : Collection) (cs : List DbCall) (d : DocSnap)
    (h : ∀ u, DbCall.update c d.id u ∉ cs) : docAfter c cs d = d := by
  induction cs with
  | nil => rfl
  | cons x xs ih =>
    have hstep : docAfter c (x :: xs) d = docAfter c xs (stepDoc c d x) := rfl
    have hs : stepDoc c d x = d := by
      cases x with
      | get c' => rfl
      | update c' id u =>
        simp only [stepDoc]
        split
        · rename_i hc
          subst hc
          apply updateDoc_of_ne
          intro hid
          exact h u (by rw [hid]; exact List.mem_cons_self _ _)
        · rfl
    rw [hstep, hs]
    exact ih (fun u hu => h u (List.mem_cons_of_mem _ hu))

theorem replay_coll_of_other (s : Store) (cs : List DbCall) (c : Collection)
    (h : ∀ x ∈ cs, x.collection ≠ c) : (replay s cs).coll c = s.coll c := by
  rw [replay_coll]
  have : ∀ d ∈ s.coll c, docAfter c cs d = d := fun d _ => docAfter_other c cs d h
  rw [List.map_congr_left this]
  simp

theorem docAfter_phase_other (c c' : Collection) (l : LogEntry) (docs : List DocSnap)
    (d : DocSnap) (h : c' ≠ c) :
    docAfter c (callsOf (Step.say l :: phaseSteps c' docs)) d = d := by
  apply docAfter_other
  intro x hx
  have : x.collection = c' := callsOf_phaseSteps_collection c' docs x hx
  rw [this]
  exact h

theorem docAfter_phase_same (c : Collection) (l : LogEntry) (docs : List DocSnap)
    (d : DocSnap) (hn : (docs.map DocSnap.id).Nodup) (hd : d ∈ docs) :
    docAfter c (callsOf (Step.say l :: phaseSteps c docs)) d =
      ⟨d.id, Obj.merge d.data (patchOf c d.data)⟩ :=
  docAfter_collSteps c docs d hn hd

theorem callsOf_phasesBefore_index (s : Store) (c : Collection) :
    ∀ x ∈ callsOf (phasesBefore s c), x.collection.index < c.index := by
  intro x hx
  cases c with
  | users => simp [phasesBefore, callsOf] at hx
  | queries =>
    have := callsOf_phaseSteps_collection .users s.users x hx
    rw [this]
    decide
  | chats =>
    simp only [phasesBefore, callsOf_append, List.mem_append] at hx
    rcases hx with hx | hx
    · rw [callsOf_phaseSteps_collection .users s.users x hx]
      decide
    · rw [callsOf_phaseSteps_collection .queries s.queries x hx]
      decide
  | messages =>
    simp only [phasesBefore, callsOf_append, List.mem_append] at hx
    rcases hx with hx | hx | hx
    · rw [callsOf_phaseSteps_collection .users s.users x hx]
      decide
    · rw [callsOf_phaseSteps_collection .queries s.queries x hx]
      decide
    · rw [callsOf_phaseSteps_collection .chats s.chats x hx]
      decide

theorem docAfter_phasesBefore (s : Store) (c c' : Collection) (d : DocSnap)
    (hlt : c'.index < c.index) (hn : ((s.coll c').map DocSnap.id).Nodup)
    (hd : d ∈ s.coll c') :
    docAfter c' (callsOf (phasesBefore s c)) d =
      ⟨d.id, Obj.merge d.data (patchOf c' d.data)⟩ := by
  cases c <;> cases c' <;> first
    | (exfalso; revert hlt; decide)
    | skip
  · exact docAfter_phase_same .users _ s.users d hn hd
  · simp only [phasesBefore, callsOf_append, docAfter_append]
    rw [docAfter_phase_same .users _ s.users d hn hd]
    exact docAfter_phase_other .users .queries _ _ _ (by decide)
  · simp only [phasesBefore, callsOf_append, docAfter_append]
    rw [docAfter_phase_other .queries .users _ _ _ (by decide)]
    exact docAfter_phase_same .queries _ s.queries d hn hd
  · simp only [phasesBefore, callsOf_append, docAfter_append]
    rw [docAfter_phase_same .users _ s.users d hn hd,
      docAfter_phase_other .users .queries _ _ _ (by decide)]
    exact docAfter_phase_other .users .chats _ _ _ (by decide)
  · simp only [phasesBefore, callsOf_append, docAfter_append]
    rw [docAfter_phase_other .queries .users _ _ _ (by decide),
      docAfter_phase_same .queries _ s.queries d hn hd]
    exact docAfter_phase_other .queries .chats _ _ _ (by decide)
  · simp only [phasesBefore, callsOf_append, docAfter_append]
    rw [docAfter_phase_other .chats .users _ _ _ (by decide),
      docAfter_phase_other .chats .queries _ _ _ (by decide)]
    exact docAfter_phase_same .chats _ s.chats d hn hd

/-- C7: no rollback on failure.  When the run is rejected with error `e`, it
stopped at the first failing call of its fixed sequence: the calls made are
the ones before it and the failing one, nothing after; the store is the
initial store with exactly the earlier updates applied.  So a document no
earlier update addressed is unmodified, the collections of later phases are
untouched, and (identifiers being unique) the collections of earlier phases
are fully migrated and stay so. -/
theorem no_rollback_on_failure (f : Faults) (s : Store) (e : Err) (w' : World)
    (h : runMigrations f (World.init s) = (.error e, w')) :
    ∃ done failed rest,
      fullPlan s = done ++ Step.call failed :: rest ∧
      f (callsOf done).length = some e ∧
      (∀ j, j < (callsOf done).length → f j = none) ∧
      w'.calls = callsOf done ++ [failed] ∧
      w'.store = replay s (callsOf done) ∧
      (∀ c, w'.store.coll c = (s.coll c).map (docAfter c (callsOf done))) ∧
      (∀ c d, (∀ u, DbCall.update c d.id u ∉ callsOf done) →
        docAfter c (callsOf done) d = d) ∧
      (∀ c, failed.collection.index < c.index → w'.store.coll c = s.coll c) ∧
      (s.uniqueIds → ∀ c, c.index < failed.collection.index →
        w'.store.coll c =
          (s.coll c).map (fun d => ⟨d.id, Obj.merge d.data (patchOf c d.data)⟩)) := by
  obtain ⟨done, failed, rest, hp, h1, h2, -, -, h5, h6⟩ := runMigrations_error f s e w' h
  obtain ⟨cf, d, r, hdone, hphase⟩ := failure_split s done rest failed hp
  have hfc : failed.collection = cf := by
    apply callsOf_phaseSteps_collection cf (s.coll cf)
    rw [hphase, callsOf_append]
    exact List.mem_append_right _ (List.mem_cons_self _ _)
  have hdc : ∀ x ∈ callsOf d, x.collection = cf := by
    intro x hx
    apply callsOf_phaseSteps_collection cf (s.coll cf)
    rw [hphase, callsOf_append]
    exact List.mem_append_left _ hx
  have hcalls : callsOf done = callsOf (phasesBefore s cf) ++ callsOf d := by
    rw [hdone, callsOf_append]
    rfl
  refine ⟨done, failed, rest, hp, h5, h6, h1, h2, ?_, ?_, ?_, ?_⟩
  · intro c
    rw [h2, replay_coll]
  · intro c x hx
    exact docAfter_of_no_update c _ x hx
  · intro c hc
    rw [h2]
    apply replay_coll_of_other
    intro x hx heq
    rw [hcalls, List.mem_append] at hx
    rw [hfc] at hc
    rcases hx with hx | hx
    · have := callsOf_phasesBefore_index s cf x hx
      rw [heq] at this
      omega
    · rw [hdc x hx] at heq
      rw [heq] at hc
      omega
  · intro hu c hc
    rw [hfc] at hc
    rw [h2, replay_coll]
    apply List.map_congr_left
    intro x hx
    rw [hcalls, docAfter_append, docAfter_phasesBefore s cf c x hc (s.uniqueIds_coll hu c) hx]
    apply docAfter_other
    intro y hy heq
    rw [hdc y hy] at heq
    rw [heq] at hc
    omega

/-- Witness for C7: on the sample store, with the read of `queries` (call
number 2) failing, the run is rejected and the store is the initial one with
the earlier update, the one of user `u1`, applied. -/
theorem no_rollback_on_failure_witness :
    (runMigrations (failAt 2 "unavailable") (World.init sampleStore)).1 =
      .error "unavailable" ∧
    ∃ done failed rest,
      fullPlan sampleStore = done ++ Step.call failed :: rest ∧
      (runMigrations (failAt 2 "unavailable") (World.init sampleStore)).2.store =
        replay sampleStore (callsOf done) := by
  refine ⟨rfl, ?_⟩
  obtain ⟨done, failed, rest, h1, -, -, -, h5, -⟩ :=
    no_rollback_on_failure (failAt 2 "unavailable") sampleStore "unavailable"
      (runMigrations (failAt 2 "unavailable") (World.init sampleStore)).2 rfl
  exact ⟨done, failed, rest, h1, h5⟩

/-! ## The top level -/

theorem topLevel_of_error (f : Faults) (s : Store) (e : Err) (w' : World)
    (h : runMigrations f (World.init s) = (.error e, w')) :
    topLevel f s = ⟨consoleError e w', 0⟩ := by
  simp only [topLevel, h]
  rfl

/-- C9, as stated, fails: with the very first call (the read of `users`)
failing, the run is rejected, the handler prints the error, and the status the
process ends with is 0, not a failure status. -/
theorem failure_exit_status_counterexample :
    (runMigrations (failAt 0 "unavailable") (World.init sampleStore)).1 =
      .error "unavailable" ∧
    (topLevel (failAt 0 "unavailable") sampleStore).world.stderr = ["unavailable"] ∧
    ¬ (topLevel (failAt 0 "unavailable") sampleStore).exitStatus ≠ 0 := by
  refine ⟨rfl, rfl, ?_⟩
  intro h
  exact h rfl

/-- C9, amended: whenever a sub-pass fails, the top-level handler prints the
error, and the banner sequence is not completed: the banners printed are the
ones up to the phase of the failing call, so no later banner and no completion
line.  The handler sets no status: the process ends with status 0. -/
theorem failure_printed_banners_cut (f : Faults) (s : Store) (e : Err) (w' : World)
    (h : runMigrations f (World.init s) = (.error e, w')) :
    (topLevel f s).world.stderr = [e] ∧
    (topLevel f s).world.stdout = w'.stdout ∧
    (topLevel f s).exitStatus = 0 ∧
    completeLine ∉ w'.stdout ∧
    ∃ failed, w'.calls.getLast? = some failed ∧
      w'.stdout.filter isBanner = bannersUpTo failed.collection := by
  obtain ⟨done, failed, rest, hp, h1, -, h3, h4, -, -⟩ := runMigrations_error f s e w' h
  obtain ⟨cf, d, r, hdone, hphase⟩ := failure_split s done rest failed hp
  have hfc : failed.collection = cf := by
    apply callsOf_phaseSteps_collection cf (s.coll cf)
    rw [hphase, callsOf_append]
    exact List.mem_append_right _ (List.mem_cons_self _ _)
  have hb : w'.stdout.filter isBanner = bannersUpTo cf := by
    have hl : logsOf done = logsOf (phasesBefore s cf) ++ (banner cf :: logsOf d) := by
      rw [hdone, logsOf_append]
      rfl
    rw [h3, hl, List.filter_append, List.filter_cons_of_pos (isBanner_banner cf),
      filter_isBanner_cut cf (s.coll cf) d r failed hphase,
      filter_isBanner_phasesBefore]
  rw [topLevel_of_error f s e w' h]
  refine ⟨?_, rfl, rfl, ?_, failed, ?_, ?_⟩
  · simp [consoleError, h4]
  · intro hmem
    have : completeLine ∈ w'.stdout.filter isBanner :=
      List.mem_filter.2 ⟨hmem, by decide⟩
    rw [hb] at this
    revert this
    cases cf <;> simp [bannersUpTo, banner, completeLine]
  · rw [h1]
    simp
  · rw [hb, hfc]

/-- Witness for the amended C9: the read of `queries` fails on the sample
store. -/
theorem failure_printed_banners_cut_witness :
    (topLevel (failAt 2 "unavailable") sampleStore).world.stderr = ["unavailable"] ∧
    (topLevel (failAt 2 "unavailable") sampleStore).exitStatus = 0 :=
  ⟨(failure_printed_banners_cut (failAt 2 "unavailable") sampleStore "unavailable"
      (runMigrations (failAt 2 "unavailable") (World.init sampleStore)).2 rfl).1,
   (failure_printed_banners_cut (failAt 2 "unavailable") sampleStore "unavailable"
      (runMigrations (failAt 2 "unavailable") (World.init sampleStore)).2 rfl).2.2.1⟩

/-! ## A successful run -/

theorem fullPlan_eq_phasesBefore (s : Store) :
    fullPlan s = phasesBefore s .messages ++
      ((Step.say (banner .messages) :: phaseSteps .messages s.messages) ++
        [Step.say completeLine]) := by
  simp [fullPlan, phasesBefore]

theorem docAfter_fullPlan (s : Store) (c : Collection) (d : DocSnap)
    (hn : ((s.coll c).map DocSnap.id).Nodup) (hd : d ∈ s.coll c) :
    docAfter c (callsOf (fullPlan s)) d = ⟨d.id, Obj.merge d.data (patchOf c d.data)⟩ := by
  have hlast : callsOf [Step.say completeLine] = [] := rfl
  rw [fullPlan_eq_phasesBefore, callsOf_append, callsOf_append, hlast, List.append_nil,
    docAfter_append]
  by_cases hc : c = .messages
  · subst hc
    rw [docAfter_other .messages (callsOf (phasesBefore s .messages)) d]
    · exact docAfter_phase_same .messages _ s.messages d hn hd
    · intro x hx heq
      have := callsOf_phasesBefore_index s .messages x hx
      rw [heq] at this
      revert this
      decide
  · have hlt : c.index < Collection.messages.index := by
      cases c <;> first
        | decide
        | exact absurd rfl hc
    rw [docAfter_phasesBefore s .messages c d hlt hn hd]
    exact docAfter_phase_other c .messages _ _ _ (fun h => hc h.symm)

theorem mem_callsOf_collSteps (c c' : Collection) (docs : List DocSnap) (id : String) (u : Obj)
    (h : DbCall.update c' id u ∈ callsOf (collSteps c docs)) :
    ∃ d ∈ docs, d.id = id ∧ (Obj.keys (patchOf c d.data)).length > 0 := by
  induction docs with
  | nil => simp [collSteps, callsOf] at h
  | cons x xs ih =>
    rw [collSteps, callsOf_append, List.mem_append] at h
    rcases h with h | h
    · unfold docSteps at h
      split at h
      · rename_i hpos
        simp only [callsOf, List.mem_singleton, DbCall.update.injEq] at h
        exact ⟨x, List.mem_cons_self _ _, h.2.1.symm, hpos⟩
      · simp [callsOf] at h
    · obtain ⟨d, hd, h1, h2⟩ := ih h
      exact ⟨d, List.mem_cons_of_mem _ hd, h1, h2⟩

theorem callsOf_say (l : LogEntry) (p : List Step) : callsOf (Step.say l :: p) = callsOf p :=
  rfl

theorem callsOf_fullPlan (s : Store) :
    callsOf (fullPlan s) = callsOf (phaseSteps .users s.users) ++
      (callsOf (phaseSteps .queries s.queries) ++
      (callsOf (phaseSteps .chats s.chats) ++ callsOf (phaseSteps .messages s.messages))) := by
  unfold fullPlan
  rw [callsOf_append, callsOf_append, callsOf_append, callsOf_append]
  simp only [callsOf_say]
  have : callsOf [] = [] := rfl
  rw [this, List.append_nil]

theorem mem_callsOf_fullPlan (s : Store) (x : DbCall) (h : x ∈ callsOf (fullPlan s)) :
    x ∈ callsOf (phaseSteps x.collection (s.coll x.collection)) := by
  have key : ∀ c, x ∈ callsOf (phaseSteps c (s.coll c)) →
      x ∈ callsOf (phaseSteps x.collection (s.coll x.collection)) := by
    intro c hx
    rw [callsOf_phaseSteps_collection c _ x hx]
    exact hx
  rw [callsOf_fullPlan] at h
  simp only [List.mem_append] at h
  rcases h with h | h | h | h
  · exact key .users h
  · exact key .queries h
  · exact key .chats h
  · exact key .messages h

/-- C8: the merge-only frame.  After a successful run on a store with unique
identifiers, every collection holds the same documents in the same order, each
one merged with the patch computed from its fields before the run: a field the
patch does not name reads as before, and a document whose patch is empty is
still there unchanged and was addressed by no update call. -/
theorem merge_only_frame (f : Faults) (s : Store) (w' : World) (hu : s.uniqueIds)
    (h : runMigrations f (World.init s) = (.ok (), w')) (c : Collection) :
    (w'.store.coll c).map DocSnap.id = (s.coll c).map DocSnap.id ∧
    w'.store.coll c =
      (s.coll c).map (fun d => ⟨d.id, Obj.merge d.data (patchOf c d.data)⟩) ∧
    (∀ d ∈ s.coll c, ∀ k, k ∉ Obj.keys (patchOf c d.data) →
      (Obj.merge d.data (patchOf c d.data)).get k = d.data.get k) ∧
    (∀ d ∈ s.coll c, patchOf c d.data = [] →
      d ∈ w'.store.coll c ∧ ∀ u, DbCall.update c d.id u ∉ w'.calls) := by
  rw [runMigrations_eq] at h
  obtain ⟨h1, h2, -, -, -⟩ := execPlan_ok f _ _ _ h
  have hcalls : w'.calls = callsOf (fullPlan s) := by simpa [World.init] using h1
  have hstore : w'.store.coll c =
      (s.coll c).map (fun d => ⟨d.id, Obj.merge d.data (patchOf c d.data)⟩) := by
    rw [h2]
    have : (World.init s).store = s := rfl
    rw [this, replay_coll]
    exact List.map_congr_left (fun d hd => docAfter_fullPlan s c d (s.uniqueIds_coll hu c) hd)
  refine ⟨?_, hstore, ?_, ?_⟩
  · rw [hstore, List.map_map]
    rfl
  · intro d _ k hk
    exact Obj.get_merge_of_not_mem _ _ k hk
  · intro d hd hp
    constructor
    · rw [hstore, List.mem_map]
      exact ⟨d, hd, by rw [hp]; rfl⟩
    · intro u hmem
      rw [hcalls] at hmem
      have hm := mem_callsOf_fullPlan s _ hmem
      simp only [DbCall.collection, phaseSteps, callsOf, List.mem_cons, reduceCtorEq,
        false_or] at hm
      obtain ⟨d', hd', hid, hpos⟩ := mem_callsOf_collSteps c c (s.coll c) d.id u hm
      have : d' = d := List.inj_on_of_nodup_map (s.uniqueIds_coll hu c) hd' hd hid
      rw [this, hp] at hpos
      simp [Obj.keys] at hpos

/-- Witness for C8: a full run on the sample store leaves the `name` of user
`u1`, which its patch does not name, as it was. -/
theorem merge_only_frame_witness :
    (Obj.merge [("name", .string "Ann")]
      (patchOf .users [("name", .string "Ann")])).get "name" = some (.string "Ann") :=
  (merge_only_frame noFaults sampleStore (runMigrations noFaults (World.init sampleStore)).2
    (by decide) rfl .users).2.2.1
    ⟨"u1", [("name", .string "Ann")]⟩ (List.mem_cons_self _ _) "name" (by decide)

end FirestoreMigrate
